import Mathlib

/-!
Verification of the supervisor-schedule engine.

The embedding covers, faithfully to the JavaScript source:
  * the canonical per-unit state generator `getSupervisorStateAtDay`
    (schedule.js), with day indices and regime parameters as `Int`;
  * the alternative regime interpretation (`AltRegime`);
  * the scoring function `scoreOffsets`, the brute-force solver
    `findBestOffsets` and the builder `buildSchedule`;
  * the validator `validateSchedule`, with alerts as structured values
    (the source builds human-readable strings carrying the same data).

JavaScript numbers reaching `clampInt` are modelled by `JsNum`
(rationals, whose `Math.floor` is the rational floor, plus NaN and the
two infinities, on which `Number.isFinite` is false).  After clamping
everything is integral, hence `Int` everywhere else.  The JavaScript
remainder expression `((k % c) + c) % c` is written with `Int.emod`;
for `c > 0` (always the case where the remainder branch is reached with
clamped parameters) the two agree pointwise.
-/

namespace SupervisorSchedule

/-- The day states of one supervisor: the source's `STATES` table
`"-"`, `"S"`, `"I"`, `"P"`, `"B"`, `"D"` (empty, standup, induction,
producing, winddown, rest). -/
inductive DayState where
  | EMPTY
  | S
  | I
  | P
  | B
  | D
  deriving DecidableEq, Repr

/-- A JavaScript number at the build boundary: a finite value (any
rational; floats are rationals) or one of the non-finite values NaN,
Infinity, -Infinity, on which `Number.isFinite` is false. -/
inductive JsNum where
  | fin (q : ℚ)
  | nan
  | posInf
  | negInf
  deriving DecidableEq

/-- `clampInt(n, min, max)` from schedule.js:
`x = Number.isFinite(n) ? Math.floor(n) : min; return Math.max(min, Math.min(max, x))`. -/
def clampInt (n : JsNum) (lo hi : Int) : Int :=
  let x : Int :=
    match n with
    | JsNum.fin q => ⌊q⌋
    | _ => lo
  max lo (min hi x)

/-- `getSupervisorStateAtDay(t, startDay, W, R, I)` from schedule.js.
The source advances a running `cursor` through the segments
S, I-block, first-cycle P-block, B, D-block, S; the cursor values are
spelled out here as explicit boundaries.  Beyond the second S the state
is cyclic with period `cycleLen = W + 1 + realRest + 1` (guarded
against `cycleLen = 0` exactly as in the source). -/
def getSupervisorStateAtDay (t startDay W R I : Int) : DayState :=
  if t < startDay then DayState.EMPTY
  else
    let realRest := max 0 (R - 2)
    let firstP := max 0 (W - I)
    if t = startDay then DayState.S
    else if startDay + 1 ≤ t ∧ t < startDay + 1 + I then DayState.I
    else if startDay + 1 + I ≤ t ∧ t < startDay + 1 + I + firstP then DayState.P
    else if t = startDay + 1 + I + firstP then DayState.B
    else if startDay + 2 + I + firstP ≤ t ∧ t < startDay + 2 + I + firstP + realRest then
      DayState.D
    else if t = startDay + 2 + I + firstP + realRest then DayState.S
    else
      let cycleLen := W + 1 + realRest + 1
      if cycleLen = 0 then DayState.EMPTY
      else
        let k := t - (startDay + 3 + I + firstP + realRest)
        let pos := (k % cycleLen + cycleLen) % cycleLen
        if pos < W then DayState.P
        else if pos = W then DayState.B
        else if W < pos ∧ pos < W + 1 + realRest then DayState.D
        else DayState.S

namespace AltRegime

/-- `getSupervisorStateAtDay` from the alternative regime module (the
interpretation that keeps S and B inside the W block and all R days as
rest).  The module's local renormalisations `W = max(2, W)`,
`R = max(0, R)`, `I = clampInt(I, 1, 5)` are applied first, as in the
source.  `afterFirst` is nonnegative and `cycleLen ≥ 2` in the
remainder branch, so `Int.emod` matches the JavaScript remainder. -/
def getSupervisorStateAtDay (t startDay W R I : Int) : DayState :=
  if t < startDay then DayState.EMPTY
  else
    let W2 := max 2 W
    let R2 := max 0 R
    let I2 := max 1 (min 5 I)
    let firstCycleLen := W2 + R2
    let firstPos := t - startDay
    if firstPos < firstCycleLen then
      if firstPos = 0 then DayState.S
      else if firstPos = W2 - 1 then DayState.B
      else if W2 ≤ firstPos then DayState.D
      else if 1 ≤ firstPos ∧ firstPos ≤ I2 then DayState.I
      else DayState.P
    else
      let afterFirst := firstPos - firstCycleLen
      let cycleLen := W2 + R2
      let pos := afterFirst % cycleLen
      if pos = 0 then DayState.S
      else if pos = W2 - 1 then DayState.B
      else if W2 ≤ pos then DayState.D
      else DayState.P

end AltRegime

/-- The steady-cycle branch of the generator as a standalone map from
the in-cycle position. -/
def cyclicState (W rr pos : Int) : DayState :=
  if pos < W then DayState.P
  else if pos = W then DayState.B
  else if W < pos ∧ pos < W + 1 + rr then DayState.D
  else DayState.S

/-- `Array.prototype.findIndex`, with `Option` in place of the -1
sentinel. -/
def findIdxO (pred : α → Bool) : List α → Option Nat
  | [] => none
  | x :: xs =>
    if pred x then some 0
    else (findIdxO pred xs).map (· + 1)

/-- Number of entries equal to 2 in a producing-count vector. -/
def countOf2 (l : List Nat) : Nat :=
  l.countP (fun x => x == 2)

/-- Producing count of one day: the inner loop of `scoreOffsets` and
`buildSchedule` counts, over the three starts, the units whose state on
day `d` is P. -/
def pCountAt (starts : List Int) (W R I : Int) (d : Int) : Nat :=
  starts.countP (fun s => getSupervisorStateAtDay d s W R I == DayState.P)

/-- The per-day producing-count vector over `[0, horizon)`; both
`scoreOffsets` and `buildSchedule` fill it with the same double loop. -/
def pCountList (starts : List Int) (W R I : Int) (horizon : Nat) : List Nat :=
  (List.range horizon).map (fun (d : Nat) => pCountAt starts W R I (d : Int))

/-- The per-day condition counted into `notTwoAfterPDays`:
`firstPDay !== -1 && d >= firstPDay && pCount[d] !== 2`. -/
def notTwoPred (pCount : List Nat) : Option Nat → Nat → Bool
  | none, _ => false
  | some f, d => decide (f ≤ d) && (pCount.getD d 0 != 2)

/-- The diagnostics record returned by `scoreOffsets`. -/
structure Diagnostics where
  firstPDay : Option Nat
  threePDays : Nat
  notTwoAfterPDays : Nat
  score : Int
  isPerfect : Bool
  deriving DecidableEq, Repr

/-- `scoreOffsets({W, R, I, horizon, starts})` from schedule.js.
`firstPDay = pCount.findIndex(x => x > 0)`; `threeP` counts days with
count 3; `notTwoAfterP` counts days at or after `firstPDay` whose count
is not 2; the score penalises them with weights 1000 and 10 plus the
distances of the second and third start from the first.  The source
also fills a local `states` matrix here, but nothing reads it (only
`pCount` feeds the diagnostics), so it is omitted. -/
def scoreOffsets (W R I : Int) (horizon : Nat) (starts : List Int) : Diagnostics :=
  let pCount := pCountList starts W R I horizon
  let firstPDay := findIdxO (fun x => decide (0 < x)) pCount
  let threeP := pCount.countP (fun x => x == 3)
  let notTwo := (List.range horizon).countP (fun d => notTwoPred pCount firstPDay d)
  let score := (threeP : Int) * 1000 + (notTwo : Int) * 10 +
    |starts.getD 1 0 - starts.getD 0 0| + |starts.getD 2 0 - starts.getD 0 0|
  { firstPDay := firstPDay
    threePDays := threeP
    notTwoAfterPDays := notTwo
    score := score
    isPerfect := threeP == 0 && notTwo == 0 }

/-- The record returned by `findBestOffsets`. -/
structure BestOffsets where
  startS2 : Int
  startS3 : Int
  diagnostics : Diagnostics
  deriving DecidableEq, Repr

/-- `maxOffset = Math.min(horizon - 1, (W + R + I) * 3 + 20)`. -/
def maxOffsetOf (W R I : Int) (horizon : Nat) : Int :=
  min ((horizon : Int) - 1) ((W + R + I) * 3 + 20)

/-- The candidate list `0, 1, ..., maxOffset` (empty when
`maxOffset < 0`, matching the loop `for (d = 0; d <= maxOffset; d++)`). -/
def candList (maxOffset : Int) : List Int :=
  (List.range (maxOffset + 1).toNat).map (fun (k : Nat) => (k : Int))

/-- The nested enumeration order of `findBestOffsets`: `startS2`
ascending in the outer loop, `startS3` ascending in the inner loop. -/
def offsetPairs (maxOffset : Int) : List (Int × Int) :=
  (candList maxOffset).flatMap (fun s2 => (candList maxOffset).map (fun s3 => (s2, s3)))

/-- The candidate record built for a pair: its offsets plus the
diagnostics scored at starts `[startS1, s2, s3]`. -/
def mkCand (W R I : Int) (horizon : Nat) (startS1 : Int) (q : Int × Int) : BestOffsets :=
  ⟨q.1, q.2, scoreOffsets W R I horizon [startS1, q.1, q.2]⟩

/-- The body of the nested candidate loops of `findBestOffsets`:
return on the first perfect candidate, otherwise keep the running best
(strictly lower score replaces, so the earliest minimum is kept). -/
def searchGo (W R I : Int) (horizon : Nat) (startS1 : Int) :
    List (Int × Int) → Option BestOffsets → Option BestOffsets
  | [], acc => acc
  | q :: rest, acc =>
    let diag := scoreOffsets W R I horizon [startS1, q.1, q.2]
    if diag.isPerfect then some ⟨q.1, q.2, diag⟩
    else
      searchGo W R I horizon startS1 rest
        (some (match acc with
               | none => ⟨q.1, q.2, diag⟩
               | some b =>
                 if diag.score < b.diagnostics.score then ⟨q.1, q.2, diag⟩ else b))

/-- `findBestOffsets({W, R, I, horizon, startS1})` from schedule.js,
including the degenerate fallback `{startS2: 0, startS3: W + 1}` used
when the loops run zero times. -/
def findBestOffsets (W R I : Int) (horizon : Nat) (startS1 : Int) : BestOffsets :=
  match searchGo W R I horizon startS1 (offsetPairs (maxOffsetOf W R I horizon)) none with
  | some b => b
  | none => ⟨0, W + 1, scoreOffsets W R I horizon [startS1, 0, W + 1]⟩

/-- The trimming scan of `buildSchedule`: accumulate days whose count
is exactly 2 and return the index at which the running total first
reaches `T` (`none` when it never does within the list). -/
def firstReachAux (T : Int) : List Nat → Int → Nat → Option Nat
  | [], _, _ => none
  | x :: rest, acc, d =>
    let acc2 := if x = 2 then acc + 1 else acc
    if T ≤ acc2 then some d else firstReachAux T rest acc2 (d + 1)

/-- The raw build parameters (JavaScript numbers). -/
structure Params where
  W : JsNum
  R : JsNum
  I : JsNum
  totalPerforationDays : JsNum

/-- The clamped parameters echoed in the result. -/
structure RParams where
  W : Int
  R : Int
  I : Int
  totalPerforationDays : Int
  deriving DecidableEq, Repr

/-- The schedule result of `buildSchedule`. -/
structure ScheduleResult where
  params : RParams
  starts : List Int
  days : Nat
  names : List String
  states : List (List DayState)
  pCount : List Nat
  diagnostics : Diagnostics

/-- `W = clampInt(W, 1, 60)` in `buildSchedule`. -/
def clampedW (p : Params) : Int := clampInt p.W 1 60

/-- `R = clampInt(R, 2, 60)` in `buildSchedule`. -/
def clampedR (p : Params) : Int := clampInt p.R 2 60

/-- `I = clampInt(I, 1, 5)` in `buildSchedule`. -/
def clampedI (p : Params) : Int := clampInt p.I 1 5

/-- `totalPerforationDays = clampInt(totalPerforationDays, 1, 5000)`. -/
def clampedT (p : Params) : Int := clampInt p.totalPerforationDays 1 5000

/-- `horizon = totalPerforationDays + (W + R + I) * 6 + 20` on the
clamped values (a positive integer, so `toNat` is exact). -/
def horizonOf (p : Params) : Nat :=
  (clampedT p + (clampedW p + clampedR p + clampedI p) * 6 + 20).toNat

/-- The solver result used by `buildSchedule` (startS1 fixed at 0). -/
def bestOf (p : Params) : BestOffsets :=
  findBestOffsets (clampedW p) (clampedR p) (clampedI p) (horizonOf p) 0

/-- `starts = [startS1, best.startS2, best.startS3]`. -/
def startsOf (p : Params) : List Int :=
  [0, (bestOf p).startS2, (bestOf p).startS3]

/-- The untrimmed state matrix `states[supervisor][day]`. -/
def statesOf (p : Params) : List (List DayState) :=
  (startsOf p).map (fun s =>
    (List.range (horizonOf p)).map (fun (d : Nat) =>
      getSupervisorStateAtDay (d : Int) s (clampedW p) (clampedR p) (clampedI p)))

/-- The untrimmed producing-count vector of `buildSchedule`. -/
def pcOf (p : Params) : List Nat :=
  pCountList (startsOf p) (clampedW p) (clampedR p) (clampedI p) (horizonOf p)

/-- `endDay`: the first day at which the accumulated count of
two-producing days reaches the target, `horizon - 1` when the loop
never breaks. -/
def endDayOf (p : Params) : Nat :=
  (firstReachAux (clampedT p) (pcOf p) 0 0).getD (horizonOf p - 1)

/-- `buildSchedule(params)` from schedule.js: clamp, pick the horizon,
solve for offsets, expand the matrix and counts, trim to `endDay + 1`
days. -/
def buildSchedule (p : Params) : ScheduleResult :=
  { params := ⟨clampedW p, clampedR p, clampedI p, clampedT p⟩
    starts := startsOf p
    days := endDayOf p + 1
    names := ["S1", "S2", "S3"]
    states := (statesOf p).map (fun row => row.take (endDayOf p + 1))
    pCount := (pcOf p).take (endDayOf p + 1)
    diagnostics := (bestOf p).diagnostics }

/-- The alerts emited by `validateSchedule`, as structured values; the
source renders each of them as a message string carrying the same
fields (`invalidPattern s d a b` stands for the message naming unit
`s`, the day range `d-1 -> d` and the pair `a-b`). -/
inductive Alert where
  | threeP (d : Nat)
  | onePAfterStart (d : Nat)
  | zeroPAfterStart (d : Nat)
  | invalidPattern (s : Nat) (d : Nat) (a b : DayState)
  deriving DecidableEq, Repr

/-- The forbidden-transition table of the validator:
`["S-S", "S-B", "B-S", "I-S", "D-I"]`. -/
def invalidPairs : List (DayState × DayState) :=
  [(DayState.S, DayState.S), (DayState.S, DayState.B), (DayState.B, DayState.S),
   (DayState.I, DayState.S), (DayState.D, DayState.I)]

/-- `validateSchedule({names, states, pCount})` from the validator
module: the three-producing check over all days, the one- and
zero-producing checks from the first day whose count is exactly 2, and
the per-unit forbidden-transition scan (skipping pairs that touch
EMPTY). -/
def validateSchedule (states : List (List DayState)) (pCount : List Nat) : List Alert :=
  let firstPDay := findIdxO (fun x => x == 2) pCount
  let a1 := ((List.range pCount.length).filter (fun d => pCount.getD d 0 == 3)).map Alert.threeP
  let a2 :=
    match firstPDay with
    | none => []
    | some f =>
      ((List.range pCount.length).filter (fun d => decide (f ≤ d))).flatMap (fun d =>
        (if pCount.getD d 0 == 1 then [Alert.onePAfterStart d] else []) ++
        (if pCount.getD d 0 == 0 then [Alert.zeroPAfterStart d] else []))
  let a3 :=
    (List.range states.length).flatMap (fun s =>
      (List.range (states.getD s []).length).flatMap (fun d =>
        if d = 0 then []
        else
          let a := (states.getD s []).getD (d - 1) DayState.EMPTY
          let b := (states.getD s []).getD d DayState.EMPTY
          if a == DayState.EMPTY || b == DayState.EMPTY then []
          else if invalidPairs.contains (a, b) then [Alert.invalidPattern s d a b] else []))
  a1 ++ a2 ++ a3

/-- The score of a candidate pair, as seen by the solver. -/
def candScore (W R I : Int) (horizon : Nat) (startS1 : Int) (q : Int × Int) : Int :=
  (scoreOffsets W R I horizon [startS1, q.1, q.2]).score

/-- Whether a candidate pair is perfect, as seen by the solver. -/
def candPerfect (W R I : Int) (horizon : Nat) (startS1 : Int) (q : Int × Int) : Bool :=
  (scoreOffsets W R I horizon [startS1, q.1, q.2]).isPerfect

/-- Pure running-minimum selector (strict improvement only, so the
earliest minimum wins); the no-perfect path of the solver computes it. -/
def runMin (f : α → Int) : α → List α → α
  | p, [] => p
  | p, q :: rest => runMin f (if f q < f p then q else p) rest

/-- `r` is the earliest element of `l` attaining the strictly lowest
`f`-value: it occurs in `l`, its value is a lower bound, and every
element enumerated before it has a strictly larger value. -/
def IsFirstMin (f : α → Int) (l : List α) (r : α) : Prop :=
  r ∈ l ∧ (∀ q ∈ l, f r ≤ f q) ∧ ∃ l1 l2, l = l1 ++ r :: l2 ∧ ∀ q ∈ l1, f r < f q

/-! ### Generic list lemmas -/

theorem getD_map_range {α : Type} (f : Nat → α) {n d : Nat} (h : d < n) (y : α) :
    ((List.range n).map f).getD d y = f d := by
  simp [List.getD_eq_getElem?_getD, List.getElem?_map, List.getElem?_range h]

theorem getD_take {α : Type} (l : List α) {n d : Nat} (h : d < n) (y : α) :
    (l.take n).getD d y = l.getD d y := by
  simp [List.getD_eq_getElem?_getD, List.getElem?_take_of_lt h]

theorem countP_range_ge (n f : Nat) :
    (List.range n).countP (fun d => decide (f ≤ d)) = n - f := by
  induction n with
  | zero => simp
  | succ n ih =>
    rw [List.range_succ, List.countP_append, ih]
    by_cases h : f ≤ n
    · simp [h]; omega
    · simp [h]; omega

theorem countP_range_band (n : Nat) (a b : Int) :
    (List.range n).countP (fun (k : Nat) => decide (a ≤ (k : Int) ∧ (k : Int) < b)) =
      (min b (n : Int) - max a 0).toNat := by
  induction n with
  | zero => simp; omega
  | succ n ih =>
    rw [List.range_succ, List.countP_append, ih, List.countP_singleton]
    by_cases h : a ≤ (n : Int) ∧ (n : Int) < b
    · rw [decide_eq_true h, if_pos rfl]; omega
    · rw [decide_eq_false h, if_neg (by simp)]; omega

theorem findIdxO_exists {α : Type} (pred : α → Bool) (y : α) :
    ∀ (l : List α) (i : Nat), i < l.length → pred (l.getD i y) = true →
      ∃ j, findIdxO pred l = some j ∧ j ≤ i
  | [], i, hi, _ => absurd hi (by simp)
  | x :: xs, i, hi, hp => by
    by_cases hx : pred x
    · exact ⟨0, by simp [findIdxO, hx], Nat.zero_le i⟩
    · cases i with
      | zero => simp [List.getD] at hp; exact absurd hp hx
      | succ i =>
        have hi' : i < xs.length := by simpa using hi
        have hp' : pred (xs.getD i y) = true := by simpa [List.getD] using hp
        obtain ⟨j, hj, hji⟩ := findIdxO_exists pred y xs i hi' hp'
        exact ⟨j + 1, by simp [findIdxO, hx, hj], by omega⟩

/-! ### Lemmas about the trimming scan -/

theorem firstReachAux_some (T : Int) :
    ∀ (l : List Nat) (acc : Int) (d j : Nat),
      firstReachAux T l acc d = some j →
      d ≤ j ∧ j - d < l.length ∧
        T ≤ acc + (countOf2 (l.take (j - d + 1)) : Int) ∧
        ∀ e, e < j - d → ¬(T ≤ acc + (countOf2 (l.take (e + 1)) : Int))
  | [], acc, d, j, h => by simp [firstReachAux] at h
  | x :: rest, acc, d, j, h => by
    rw [firstReachAux] at h
    by_cases hstop : T ≤ (if x = 2 then acc + 1 else acc)
    · rw [if_pos hstop] at h
      injection h with h
      subst h
      refine ⟨Nat.le_refl d, by simp, ?_, by omega⟩
      have : countOf2 [x] = if x = 2 then 1 else 0 := by
        simp [countOf2, List.countP_singleton, beq_iff_eq]
      simp only [Nat.sub_self, List.take_succ_cons, List.take_zero, this]
      split at hstop <;> split <;> omega
    · rw [if_neg hstop] at h
      obtain ⟨h1, h2, h3, h4⟩ := firstReachAux_some T rest _ (d + 1) j h
      have hd : d + 1 ≤ j := h1
      have hcount : ∀ m : Nat, countOf2 (x :: rest |>.take (m + 1)) =
          (if x = 2 then 1 else 0) + countOf2 (rest.take m) := by
        intro m
        simp only [List.take_succ_cons, countOf2, List.countP_cons, beq_iff_eq]
        split <;> omega
      refine ⟨by omega, by simp; omega, ?_, ?_⟩
      · have : j - d = (j - (d + 1)) + 1 := by omega
        rw [this, hcount]
        split at h3 <;> split <;> omega
      · intro e he
        cases e with
        | zero =>
          rw [hcount 0]
          simp only [List.take_zero, countOf2, List.countP_nil]
          split at hstop <;> split <;> omega
        | succ e =>
          have := h4 e (by omega)
          rw [hcount (e + 1)]
          split at this <;> split <;> omega

theorem firstReachAux_none (T : Int) :
    ∀ (l : List Nat) (acc : Int) (d : Nat),
      firstReachAux T l acc d = none →
      ∀ e, e < l.length → ¬(T ≤ acc + (countOf2 (l.take (e + 1)) : Int))
  | [], _, _, _ => by intro e he; simp at he
  | x :: rest, acc, d, h => by
    rw [firstReachAux] at h
    by_cases hstop : T ≤ (if x = 2 then acc + 1 else acc)
    · rw [if_pos hstop] at h; exact absurd h (by simp)
    · rw [if_neg hstop] at h
      have ih := firstReachAux_none T rest _ (d + 1) h
      intro e he
      have hcount : ∀ m : Nat, countOf2 (x :: rest |>.take (m + 1)) =
          (if x = 2 then 1 else 0) + countOf2 (rest.take m) := by
        intro m
        simp only [List.take_succ_cons, countOf2, List.countP_cons, beq_iff_eq]
        split <;> omega
      cases e with
      | zero =>
        rw [hcount 0]
        simp only [List.take_zero, countOf2, List.countP_nil]
        split at hstop <;> split <;> omega
      | succ e =>
        have := ih e (by simp at he; omega)
        rw [hcount (e + 1)]
        split at this <;> split <;> omega

theorem firstReachAux_isSome (T : Int) :
    ∀ (l : List Nat) (acc : Int) (d : Nat),
      acc < T → T ≤ acc + (countOf2 l : Int) →
      (firstReachAux T l acc d).isSome = true
  | [], acc, d, hlt, hle => by
    simp [countOf2] at hle; omega
  | x :: rest, acc, d, hlt, hle => by
    rw [firstReachAux]
    by_cases hstop : T ≤ (if x = 2 then acc + 1 else acc)
    · rw [if_pos hstop]; rfl
    · rw [if_neg hstop]
      refine firstReachAux_isSome T rest _ (d + 1) (by omega) ?_
      have : countOf2 (x :: rest) = (if x = 2 then 1 else 0) + countOf2 rest := by
        simp only [countOf2, List.countP_cons, beq_iff_eq]
        split <;> omega
      rw [this] at hle
      split at hle <;> split <;> omega

/-! ### Lemmas about the running minimum -/

theorem runMin_eq_or_lt {α : Type} (f : α → Int) :
    ∀ (l : List α) (p : α), runMin f p l = p ∨ f (runMin f p l) < f p
  | [], _ => Or.inl rfl
  | q :: rest, p => by
    rw [runMin]
    by_cases hc : f q < f p
    · rw [if_pos hc]
      rcases runMin_eq_or_lt f rest q with h | h
      · rw [h]; exact Or.inr hc
      · exact Or.inr (lt_trans h hc)
    · rw [if_neg hc]
      exact runMin_eq_or_lt f rest p

theorem runMin_min {α : Type} (f : α → Int) :
    ∀ (l : List α) (p : α),
      f (runMin f p l) ≤ f p ∧ ∀ q ∈ l, f (runMin f p l) ≤ f q
  | [], _ => ⟨le_refl _, by simp⟩
  | q :: rest, p => by
    rw [runMin]
    by_cases hc : f q < f p
    · rw [if_pos hc]
      obtain ⟨h1, h2⟩ := runMin_min f rest q
      refine ⟨le_of_lt (lt_of_le_of_lt h1 hc), ?_⟩
      intro x hx
      rcases List.mem_cons.1 hx with rfl | hx
      · exact h1
      · exact h2 x hx
    · rw [if_neg hc]
      obtain ⟨h1, h2⟩ := runMin_min f rest p
      refine ⟨h1, ?_⟩
      intro x hx
      rcases List.mem_cons.1 hx with rfl | hx
      · exact le_trans h1 (le_of_not_lt hc)
      · exact h2 x hx

theorem runMin_isFirstMin {α : Type} (f : α → Int) :
    ∀ (l : List α) (p : α), IsFirstMin f (p :: l) (runMin f p l)
  | [], p => ⟨by simp [runMin], by simp [runMin], [], [], by simp [runMin], by simp⟩
  | q :: rest, p => by
    rw [runMin]
    by_cases hc : f q < f p
    · rw [if_pos hc]
      obtain ⟨hmem, _, l1, l2, hsplit, hstrict⟩ := runMin_isFirstMin f rest q
      refine ⟨List.mem_cons_of_mem p hmem, ?_, p :: l1, l2, by rw [List.cons_append, ← hsplit], ?_⟩
      · intro x hx
        rcases List.mem_cons.1 hx with rfl | hx
        · exact le_of_lt (lt_of_le_of_lt (runMin_min f rest q).1 hc)
        · rcases List.mem_cons.1 hx with rfl | hx
          · exact (runMin_min f rest _).1
          · exact (runMin_min f rest _).2 x hx
      · intro x hx
        rcases List.mem_cons.1 hx with rfl | hx
        · exact lt_of_le_of_lt (runMin_min f rest q).1 hc
        · exact hstrict x hx
    · rw [if_neg hc]
      obtain ⟨hmem, _, l1, l2, hsplit, hstrict⟩ := runMin_isFirstMin f rest p
      have hle : f (runMin f p rest) ≤ f p := (runMin_min f rest p).1
      have hmem2 : runMin f p rest ∈ p :: q :: rest := by
        rcases List.mem_cons.1 hmem with h | h
        · rw [h]; exact List.mem_cons_self _ _
        · exact List.mem_cons_of_mem p (List.mem_cons_of_mem q h)
      have hmins : ∀ x ∈ p :: q :: rest, f (runMin f p rest) ≤ f x := by
        intro x hx
        rcases List.mem_cons.1 hx with rfl | hx
        · exact hle
        · rcases List.mem_cons.1 hx with rfl | hx
          · exact le_trans hle (le_of_not_lt hc)
          · exact (runMin_min f rest p).2 x hx
      rcases runMin_eq_or_lt f rest p with heq | hlt
      · exact ⟨hmem2, hmins, [], q :: rest, by simp [heq], by simp⟩
      · cases l1 with
        | nil =>
          simp only [List.nil_append, List.cons.injEq] at hsplit
          exact ⟨hmem2, hmins, [], q :: rest, by simp [← hsplit.1], by simp⟩
        | cons a l1 =>
          simp only [List.cons_append, List.cons.injEq] at hsplit
          obtain ⟨ha, htail⟩ := hsplit
          refine ⟨hmem2, hmins, p :: q :: l1, l2, ?_, ?_⟩
          · rw [List.cons_append, List.cons_append, ← htail]
          · intro x hx
            rcases List.mem_cons.1 hx with rfl | hx
            · exact hlt
            · rcases List.mem_cons.1 hx with rfl | hx
              · exact lt_of_lt_of_le hlt (le_of_not_lt hc)
              · exact hstrict x (List.mem_cons_of_mem a hx)

/-! ### Lemmas about the candidate search -/

theorem searchGo_acc_isSome (W R I : Int) (h : Nat) (s1 : Int) :
    ∀ (l : List (Int × Int)) (b : BestOffsets),
      (searchGo W R I h s1 l (some b)).isSome = true
  | [], _ => rfl
  | q :: rest, b => by
    simp only [searchGo]
    by_cases hp : (scoreOffsets W R I h [s1, q.1, q.2]).isPerfect
    · rw [if_pos hp]; rfl
    · rw [if_neg hp]
      exact searchGo_acc_isSome W R I h s1 rest _

theorem searchGo_cons_isSome (W R I : Int) (h : Nat) (s1 : Int)
    (q : Int × Int) (rest : List (Int × Int)) (acc : Option BestOffsets) :
    (searchGo W R I h s1 (q :: rest) acc).isSome = true := by
  simp only [searchGo]
  by_cases hp : (scoreOffsets W R I h [s1, q.1, q.2]).isPerfect
  · rw [if_pos hp]; rfl
  · rw [if_neg hp]
    exact searchGo_acc_isSome W R I h s1 rest _

theorem searchGo_sound (W R I : Int) (h : Nat) (s1 : Int) (Pr : BestOffsets → Prop) :
    ∀ (l : List (Int × Int)) (acc : Option BestOffsets),
      (∀ b, acc = some b → Pr b) → (∀ q ∈ l, Pr (mkCand W R I h s1 q)) →
      ∀ c, searchGo W R I h s1 l acc = some c → Pr c
  | [], acc, hacc, _, c, hc => hacc c hc
  | q :: rest, acc, hacc, hl, c, hc => by
    simp only [searchGo] at hc
    by_cases hp : (scoreOffsets W R I h [s1, q.1, q.2]).isPerfect
    · rw [if_pos hp] at hc
      injection hc with hc
      rw [← hc]
      exact hl q (List.mem_cons_self q rest)
    · rw [if_neg hp] at hc
      refine searchGo_sound W R I h s1 Pr rest _ ?_ (fun x hx => hl x (List.mem_cons_of_mem q hx)) c hc
      intro b hb
      injection hb with hb
      rw [← hb]
      cases acc with
      | none => exact hl q (List.mem_cons_self q rest)
      | some b0 =>
        show Pr (if (scoreOffsets W R I h [s1, q.1, q.2]).score < b0.diagnostics.score
                 then ⟨q.1, q.2, scoreOffsets W R I h [s1, q.1, q.2]⟩ else b0)
        by_cases hs : (scoreOffsets W R I h [s1, q.1, q.2]).score < b0.diagnostics.score
        · rw [if_pos hs]
          exact hl q (List.mem_cons_self q rest)
        · rw [if_neg hs]
          exact hacc b0 rfl

theorem searchGo_find_perfect (W R I : Int) (h : Nat) (s1 : Int) :
    ∀ (l : List (Int × Int)) (acc : Option BestOffsets) (r : Int × Int),
      l.find? (candPerfect W R I h s1) = some r →
      searchGo W R I h s1 l acc = some (mkCand W R I h s1 r)
  | [], _, r, hr => by simp at hr
  | q :: rest, acc, r, hr => by
    simp only [searchGo]
    by_cases hp : candPerfect W R I h s1 q = true
    · have hp2 : (scoreOffsets W R I h [s1, q.1, q.2]).isPerfect = true := hp
      rw [List.find?_cons_of_pos _ hp] at hr
      injection hr with hr
      rw [if_pos hp2, ← hr]
      rfl
    · have hp2 : ¬((scoreOffsets W R I h [s1, q.1, q.2]).isPerfect = true) := hp
      rw [List.find?_cons_of_neg _ (by simpa using hp)] at hr
      rw [if_neg hp2]
      exact searchGo_find_perfect W R I h s1 rest _ r hr

theorem searchGo_no_perfect (W R I : Int) (h : Nat) (s1 : Int) :
    ∀ (l : List (Int × Int)) (p : Int × Int),
      (∀ q ∈ l, candPerfect W R I h s1 q = false) →
      searchGo W R I h s1 l (some (mkCand W R I h s1 p)) =
        some (mkCand W R I h s1 (runMin (candScore W R I h s1) p l))
  | [], p, _ => by simp [searchGo, runMin]
  | q :: rest, p, hl => by
    have hq : candPerfect W R I h s1 q = false := hl q (List.mem_cons_self q rest)
    have hq2 : ¬((scoreOffsets W R I h [s1, q.1, q.2]).isPerfect = true) := by
      intro hcon; rw [show (scoreOffsets W R I h [s1, q.1, q.2]).isPerfect =
        candPerfect W R I h s1 q from rfl] at hcon; rw [hq] at hcon; cases hcon
    simp only [searchGo, runMin]
    rw [if_neg hq2]
    by_cases hs : candScore W R I h s1 q < candScore W R I h s1 p
    · have hs2 : (scoreOffsets W R I h [s1, q.1, q.2]).score <
          (mkCand W R I h s1 p).diagnostics.score := hs
      rw [if_pos hs2, if_pos hs]
      exact searchGo_no_perfect W R I h s1 rest q (fun x hx => hl x (List.mem_cons_of_mem q hx))
    · have hs2 : ¬((scoreOffsets W R I h [s1, q.1, q.2]).score <
          (mkCand W R I h s1 p).diagnostics.score) := hs
      rw [if_neg hs2, if_neg hs]
      exact searchGo_no_perfect W R I h s1 rest p (fun x hx => hl x (List.mem_cons_of_mem q hx))

theorem findBestOffsets_diag (W R I : Int) (h : Nat) (s1 : Int) :
    (findBestOffsets W R I h s1).diagnostics =
      scoreOffsets W R I h
        [s1, (findBestOffsets W R I h s1).startS2, (findBestOffsets W R I h s1).startS3] := by
  unfold findBestOffsets
  cases hs : searchGo W R I h s1 (offsetPairs (maxOffsetOf W R I h)) none with
  | none => rfl
  | some b =>
    exact searchGo_sound W R I h s1
      (fun c => c.diagnostics = scoreOffsets W R I h [s1, c.startS2, c.startS3])
      _ none (fun _ hb => by cases hb) (fun q _ => rfl) b hs

/-! ### The enumeration order of the candidate pairs -/

theorem candList_mem (mo : Int) (a : Int) : a ∈ candList mo ↔ 0 ≤ a ∧ a ≤ mo := by
  simp only [candList, List.mem_map, List.mem_range]
  constructor
  · rintro ⟨k, hk, rfl⟩
    omega
  · rintro ⟨h0, h1⟩
    refine ⟨a.toNat, by omega, by omega⟩

theorem offsetPairs_mem (mo : Int) (q : Int × Int) :
    q ∈ offsetPairs mo ↔ 0 ≤ q.1 ∧ q.1 ≤ mo ∧ 0 ≤ q.2 ∧ q.2 ≤ mo := by
  simp only [offsetPairs, List.mem_flatMap, List.mem_map]
  constructor
  · rintro ⟨a, ha, b, hb, rfl⟩
    obtain ⟨h1, h2⟩ := (candList_mem mo a).1 ha
    obtain ⟨h3, h4⟩ := (candList_mem mo b).1 hb
    exact ⟨h1, h2, h3, h4⟩
  · rintro ⟨h1, h2, h3, h4⟩
    exact ⟨q.1, (candList_mem mo q.1).2 ⟨h1, h2⟩, q.2, (candList_mem mo q.2).2 ⟨h3, h4⟩, rfl⟩

theorem candList_sorted (mo : Int) : (candList mo).Pairwise (· < ·) := by
  rw [candList, List.pairwise_map]
  exact (List.pairwise_lt_range _).imp (fun hab => by omega)

theorem flatMap_pairs_pairwise (M : List Int) (hM : M.Pairwise (· < ·)) :
    ∀ (L : List Int), L.Pairwise (· < ·) →
      (L.flatMap (fun a => M.map (fun b => (a, b)))).Pairwise
        (fun p q : Int × Int => p.1 < q.1 ∨ (p.1 = q.1 ∧ p.2 < q.2))
  | [], _ => by simp
  | a :: L, hL => by
    rw [List.flatMap_cons, List.pairwise_append]
    obtain ⟨hhead, htail⟩ := List.pairwise_cons.1 hL
    refine ⟨?_, flatMap_pairs_pairwise M hM L htail, ?_⟩
    · rw [List.pairwise_map]
      exact hM.imp (fun hab => Or.inr ⟨rfl, hab⟩)
    · intro x hx y hy
      obtain ⟨b, _, rfl⟩ := List.mem_map.1 hx
      obtain ⟨a2, ha2, hy2⟩ := List.mem_flatMap.1 hy
      obtain ⟨b2, _, rfl⟩ := List.mem_map.1 hy2
      exact Or.inl (hhead a2 ha2)

theorem offsetPairs_pairwise (mo : Int) :
    (offsetPairs mo).Pairwise
      (fun p q : Int × Int => p.1 < q.1 ∨ (p.1 = q.1 ∧ p.2 < q.2)) :=
  flatMap_pairs_pairwise (candList mo) (candList_sorted mo) (candList mo) (candList_sorted mo)

/-! ### Lemmas about the state generator -/

theorem jsMod_eq (x L : Int) : (x % L + L) % L = x % L := by
  rw [Int.add_emod_self, Int.emod_emod]

theorem state_cyclic (t A W R I : Int) (hW : 1 ≤ W) (hI : 1 ≤ I)
    (ht : A + 3 + I + max 0 (W - I) + max 0 (R - 2) ≤ t) :
    getSupervisorStateAtDay t A W R I =
      cyclicState W (max 0 (R - 2))
        ((t - (A + 3 + I + max 0 (W - I) + max 0 (R - 2))) % (W + 1 + max 0 (R - 2) + 1)) := by
  simp only [getSupervisorStateAtDay]
  rw [if_neg (by omega), if_neg (by intro hc; omega), if_neg (by omega),
    if_neg (by intro hc; omega), if_neg (by omega), if_neg (by intro hc; omega),
    if_neg (by omega), if_neg (by intro hc; omega), jsMod_eq]
  rfl

theorem state_secondS (A W R I : Int) (hW : 1 ≤ W) (hI : 1 ≤ I) :
    getSupervisorStateAtDay (A + 2 + I + max 0 (W - I) + max 0 (R - 2)) A W R I =
      DayState.S := by
  simp only [getSupervisorStateAtDay]
  rw [if_neg (by omega), if_neg (by intro hc; omega), if_neg (by omega),
    if_neg (by intro hc; omega), if_neg (by omega), if_neg (by intro hc; omega)]
  simp

theorem state_first_block (A W R I : Int) (hW : 1 ≤ W) (hI : 1 ≤ I) (k : Int)
    (hk0 : 0 ≤ k) (hk : k < 2 + I + max 0 (W - I)) :
    getSupervisorStateAtDay (A + k) A W R I = DayState.P ↔
      1 + I ≤ k ∧ k < 1 + I + max 0 (W - I) := by
  by_cases hband : 1 + I ≤ k ∧ k < 1 + I + max 0 (W - I)
  · refine iff_of_true ?_ hband
    simp only [getSupervisorStateAtDay]
    rw [if_neg (by omega), if_neg (by omega), if_neg (by omega), if_pos (by omega)]
  · refine iff_of_false ?_ hband
    have hcases : k = 0 ∨ (1 ≤ k ∧ k < 1 + I) ∨ k = 1 + I + max 0 (W - I) := by omega
    rcases hcases with hc | hc | hc
    · simp only [getSupervisorStateAtDay]
      rw [if_neg (by omega), if_pos (by omega)]
      simp
    · simp only [getSupervisorStateAtDay]
      rw [if_neg (by omega), if_neg (by omega), if_pos (by omega)]
      simp
    · simp only [getSupervisorStateAtDay]
      rw [if_neg (by omega), if_neg (by omega), if_neg (by omega), if_neg (by omega),
        if_pos (by omega)]
      simp

theorem state_firstP (A W R I : Int) (hW : 1 ≤ W) (hR : 2 ≤ R) (hI1 : 1 ≤ I) :
    getSupervisorStateAtDay
      (A + (if I < W then 1 + I else I + max 0 (R - 2) + 3)) A W R I = DayState.P := by
  by_cases hIW : I < W
  · rw [if_pos hIW]
    simp only [getSupervisorStateAtDay]
    rw [if_neg (by omega), if_neg (by omega), if_neg (by omega), if_pos (by omega)]
  · rw [if_neg hIW]
    rw [state_cyclic _ A W R I hW hI1 (by omega)]
    have hnum : A + (I + max 0 (R - 2) + 3) -
        (A + 3 + I + max 0 (W - I) + max 0 (R - 2)) = 0 := by omega
    rw [hnum, Int.zero_emod]
    simp only [cyclicState]
    rw [if_pos (by omega)]

/-- C2: periodicity of the state generator.  For every clamped
`W ≥ 1`, `R ≥ 2`, `I ∈ [1, 5]`, every `startDay` and every integer `t`
at or beyond the second STANDUP boundary
`startDay + 1 + I + max 0 (W - I) + 1 + max 0 (R - 2)`, the state at
`t + cycleLen` equals the state at `t`, where
`cycleLen = W + 1 + max 0 (R - 2) + 1`. -/
theorem state_generator_periodicity (t startDay W R I : Int)
    (hW : 1 ≤ W) (hR : 2 ≤ R) (hI1 : 1 ≤ I) (hI5 : I ≤ 5)
    (ht : startDay + 1 + I + max 0 (W - I) + 1 + max 0 (R - 2) ≤ t) :
    getSupervisorStateAtDay (t + (W + 1 + max 0 (R - 2) + 1)) startDay W R I =
      getSupervisorStateAtDay t startDay W R I := by
  rcases eq_or_lt_of_le ht with heq | hlt
  · subst heq
    rw [state_cyclic _ startDay W R I hW hI1 (by omega)]
    have hnum : startDay + 1 + I + max 0 (W - I) + 1 + max 0 (R - 2) +
        (W + 1 + max 0 (R - 2) + 1) -
        (startDay + 3 + I + max 0 (W - I) + max 0 (R - 2)) =
        W + 1 + max 0 (R - 2) := by ring
    rw [hnum, Int.emod_eq_of_lt (by omega) (by omega)]
    have harg : startDay + 1 + I + max 0 (W - I) + 1 + max 0 (R - 2) =
        startDay + 2 + I + max 0 (W - I) + max 0 (R - 2) := by ring
    rw [harg, state_secondS startDay W R I hW hI1]
    simp only [cyclicState]
    rw [if_neg (by omega), if_neg (by omega), if_neg (by omega)]
  · rw [state_cyclic t startDay W R I hW hI1 (by omega),
      state_cyclic _ startDay W R I hW hI1 (by omega)]
    have hnum : t + (W + 1 + max 0 (R - 2) + 1) -
        (startDay + 3 + I + max 0 (W - I) + max 0 (R - 2)) =
        t - (startDay + 3 + I + max 0 (W - I) + max 0 (R - 2)) +
          (W + 1 + max 0 (R - 2) + 1) := by ring
    rw [hnum, Int.add_emod_self]

/-- Witness for C2 at `W = 1`, `R = 2`, `I = 1`, `startDay = 0`,
`t = 3` (the second STANDUP day itself). -/
theorem state_generator_periodicity_witness :
    getSupervisorStateAtDay (3 + (1 + 1 + max 0 ((2 : Int) - 2) + 1)) 0 1 2 1 =
      getSupervisorStateAtDay 3 0 1 2 1 :=
  state_generator_periodicity 3 0 1 2 1 (by decide) (by decide) (by decide) (by decide)
    (by decide)

/-- C5: first-cycle shortening.  Over the first on-duty block (the
`2 + I + max 0 (W - I)` days running from the first STANDUP through the
first WINDDOWN), the number of PRODUCING days is exactly
`max 0 (W - I)`, which is at most `W`; and when `W ≤ I` that count is
zero while the generator still yields INDUCTION on the last induction
day directly followed by WINDDOWN, without error. -/
theorem first_cycle_shortening (startDay W R I : Int)
    (hW : 1 ≤ W) (hR : 2 ≤ R) (hI1 : 1 ≤ I) (hI5 : I ≤ 5) :
    (((List.range ((2 + I + max 0 (W - I)).toNat)).countP
        (fun (k : Nat) =>
          getSupervisorStateAtDay (startDay + (k : Int)) startDay W R I ==
            DayState.P)) : Int) = max 0 (W - I) ∧
    max 0 (W - I) ≤ W ∧
    (W ≤ I →
      getSupervisorStateAtDay (startDay + I) startDay W R I = DayState.I ∧
      getSupervisorStateAtDay (startDay + 1 + I) startDay W R I = DayState.B) := by
  refine ⟨?_, by omega, fun hWI => ⟨?_, ?_⟩⟩
  · have hcongr : (List.range ((2 + I + max 0 (W - I)).toNat)).countP
        (fun (k : Nat) =>
          getSupervisorStateAtDay (startDay + (k : Int)) startDay W R I ==
            DayState.P) =
        (List.range ((2 + I + max 0 (W - I)).toNat)).countP
          (fun (k : Nat) => decide ((1 + I ≤ (k : Int)) ∧ (k : Int) < 1 + I + max 0 (W - I))) := by
      refine List.countP_congr ?_
      intro k hkmem
      rw [List.mem_range] at hkmem
      have hk0 : (0 : Int) ≤ (k : Int) := Int.natCast_nonneg k
      have hkb : (k : Int) < 2 + I + max 0 (W - I) := by omega
      rw [beq_iff_eq, state_first_block startDay W R I hW hI1 (k : Int) hk0 hkb]
      simp [decide_eq_true_eq]
    rw [hcongr, countP_range_band]
    omega
  · simp only [getSupervisorStateAtDay]
    rw [if_neg (by omega), if_neg (by omega), if_pos (by omega)]
  · simp only [getSupervisorStateAtDay]
    rw [if_neg (by omega), if_neg (by omega), if_neg (by omega), if_neg (by omega),
      if_pos (by omega)]

/-- Witness for C5 at `startDay = 0`, `W = 1`, `R = 2`, `I = 1` (a
degenerate regime with `W ≤ I`, zero first-block producing days). -/
theorem first_cycle_shortening_witness :
    (((List.range (((2 : Int) + 1 + max 0 ((1 : Int) - 1)).toNat)).countP
        (fun (k : Nat) =>
          getSupervisorStateAtDay ((0 : Int) + (k : Int)) 0 1 2 1 == DayState.P)) : Int) =
      max 0 ((1 : Int) - 1) ∧
    getSupervisorStateAtDay ((0 : Int) + 1) 0 1 2 1 = DayState.I ∧
    getSupervisorStateAtDay ((0 : Int) + 1 + 1) 0 1 2 1 = DayState.B := by
  obtain ⟨h1, _, h3⟩ := first_cycle_shortening 0 1 2 1 (by decide) (by decide) (by decide)
    (by decide)
  exact ⟨h1, (h3 (by decide)).1, (h3 (by decide)).2⟩

/-- C8: the two regime interpretations are non-equivalent.  At
`t = 13`, `startDay = 0`, `W = 14`, `R = 7`, `I = 5` the canonical
generator yields PRODUCING (day 13 lies in the first-cycle producing
block) while the alternative generator yields WINDDOWN (day `W - 1` of
the block). -/
theorem regime_interpretations_differ :
    ∃ (t startDay W R I : Int),
      getSupervisorStateAtDay t startDay W R I ≠
        AltRegime.getSupervisorStateAtDay t startDay W R I :=
  ⟨13, 0, 14, 7, 5, by decide⟩

theorem mem_ite_singleton {c : Prop} [Decidable c] {x y : Alert} :
    x ∈ (if c then [y] else []) ↔ c ∧ x = y := by
  split <;> simp [*]

/-- C6: the validator's transition check.  For every schedule matrix,
unit `s` and day `d`, the validator emits the transition alert naming
unit `s` and days `d-1 -> d` exactly when `d` is an in-range day with a
predecessor, neither adjacent state is EMPTY, and the ordered pair of
states belongs to the forbidden-transition table
`{S-S, S-B, B-S, I-S, D-I}`; in particular pairs touching EMPTY never
produce an alert. -/
theorem validator_transition_alerts (states : List (List DayState)) (pCount : List Nat)
    (s d : Nat) :
    Alert.invalidPattern s d ((states.getD s []).getD (d - 1) DayState.EMPTY)
        ((states.getD s []).getD d DayState.EMPTY) ∈ validateSchedule states pCount ↔
      s < states.length ∧ 1 ≤ d ∧ d < (states.getD s []).length ∧
        (states.getD s []).getD (d - 1) DayState.EMPTY ≠ DayState.EMPTY ∧
        (states.getD s []).getD d DayState.EMPTY ≠ DayState.EMPTY ∧
        ((states.getD s []).getD (d - 1) DayState.EMPTY,
          (states.getD s []).getD d DayState.EMPTY) ∈ invalidPairs := by
  simp only [validateSchedule]
  constructor
  · intro hmem
    rcases List.mem_append.1 hmem with h12 | h3
    · rcases List.mem_append.1 h12 with h1 | h2
      · exfalso
        obtain ⟨x, _, heq⟩ := List.mem_map.1 h1
        cases heq
      · exfalso
        cases hfp : findIdxO (fun x => x == 2) pCount with
        | none => rw [hfp] at h2; cases h2
        | some f =>
          rw [hfp] at h2
          obtain ⟨d2, _, hbody⟩ := List.mem_flatMap.1 h2
          rcases List.mem_append.1 hbody with hb | hb <;>
            · obtain ⟨_, heq⟩ := mem_ite_singleton.1 hb
              cases heq
    · obtain ⟨s2, hs2, hrow⟩ := List.mem_flatMap.1 h3
      obtain ⟨d2, hd2, hbody⟩ := List.mem_flatMap.1 hrow
      rw [List.mem_range] at hs2 hd2
      by_cases hz : d2 = 0
      · rw [if_pos hz] at hbody; cases hbody
      · rw [if_neg hz] at hbody
        by_cases hemp : ((states.getD s2 []).getD (d2 - 1) DayState.EMPTY == DayState.EMPTY ||
            (states.getD s2 []).getD d2 DayState.EMPTY == DayState.EMPTY) = true
        · rw [if_pos hemp] at hbody; cases hbody
        · rw [if_neg hemp] at hbody
          by_cases hcont : invalidPairs.contains
              ((states.getD s2 []).getD (d2 - 1) DayState.EMPTY,
               (states.getD s2 []).getD d2 DayState.EMPTY) = true
          · rw [if_pos hcont] at hbody
            rw [List.mem_singleton] at hbody
            have hs : s = s2 := by cases hbody; rfl
            have hd : d = d2 := by cases hbody; rfl
            subst hs; subst hd
            simp only [Bool.or_eq_true, beq_iff_eq, not_or] at hemp
            refine ⟨hs2, by omega, hd2, hemp.1, hemp.2, ?_⟩
            exact List.elem_iff.1 hcont
          · rw [if_neg hcont] at hbody; cases hbody
  · rintro ⟨hs, hd1, hdlen, hne1, hne2, hpair⟩
    refine List.mem_append.2 (Or.inr ?_)
    refine List.mem_flatMap.2 ⟨s, List.mem_range.2 hs, ?_⟩
    refine List.mem_flatMap.2 ⟨d, List.mem_range.2 hdlen, ?_⟩
    rw [if_neg (by omega)]
    rw [if_neg (by
      simp only [Bool.or_eq_true, beq_iff_eq]
      exact not_or.2 ⟨hne1, hne2⟩)]
    rw [if_pos (List.elem_iff.2 hpair)]
    exact List.mem_singleton.2 rfl

/-! ### Lemmas about the builder -/

theorem getD_of_length_le {α : Type} {l : List α} {n : Nat} (h : l.length ≤ n) (y : α) :
    l.getD n y = y := by
  simp [List.getD_eq_getElem?_getD, List.getElem?_eq_none h]

theorem clampInt_mem (n : JsNum) (lo hi : Int) (h : lo ≤ hi) :
    lo ≤ clampInt n lo hi ∧ clampInt n lo hi ≤ hi := by
  cases n <;> (simp only [clampInt]; omega)

theorem clampedW_range (p : Params) : 1 ≤ clampedW p ∧ clampedW p ≤ 60 :=
  clampInt_mem p.W 1 60 (by omega)

theorem clampedR_range (p : Params) : 2 ≤ clampedR p ∧ clampedR p ≤ 60 :=
  clampInt_mem p.R 2 60 (by omega)

theorem clampedI_range (p : Params) : 1 ≤ clampedI p ∧ clampedI p ≤ 5 :=
  clampInt_mem p.I 1 5 (by omega)

theorem clampedT_range (p : Params) : 1 ≤ clampedT p ∧ clampedT p ≤ 5000 :=
  clampInt_mem p.totalPerforationDays 1 5000 (by omega)

theorem horizonOf_int (p : Params) :
    (horizonOf p : Int) = clampedT p + (clampedW p + clampedR p + clampedI p) * 6 + 20 := by
  have h1 := clampedW_range p
  have h2 := clampedR_range p
  have h3 := clampedI_range p
  have h4 := clampedT_range p
  unfold horizonOf
  omega

theorem horizonOf_pos (p : Params) : 1 ≤ horizonOf p := by
  have h1 := clampedW_range p
  have h2 := clampedR_range p
  have h3 := clampedI_range p
  have h4 := clampedT_range p
  unfold horizonOf
  omega

theorem pcOf_length (p : Params) : (pcOf p).length = horizonOf p := by
  simp [pcOf, pCountList]

theorem endDayOf_lt (p : Params) : endDayOf p < horizonOf p := by
  unfold endDayOf
  cases hfr : firstReachAux (clampedT p) (pcOf p) 0 0 with
  | none =>
    have := horizonOf_pos p
    simp only [Option.getD]
    omega
  | some j =>
    obtain ⟨_, hlen, _, _⟩ := firstReachAux_some (clampedT p) (pcOf p) 0 0 j hfr
    rw [pcOf_length] at hlen
    simpa using hlen

theorem buildSchedule_days (p : Params) : (buildSchedule p).days = endDayOf p + 1 := rfl

theorem buildSchedule_pCount (p : Params) :
    (buildSchedule p).pCount = (pcOf p).take (endDayOf p + 1) := rfl

theorem buildSchedule_states (p : Params) :
    (buildSchedule p).states = (statesOf p).map (fun row => row.take (endDayOf p + 1)) := rfl

theorem buildSchedule_starts (p : Params) : (buildSchedule p).starts = startsOf p := rfl

theorem buildSchedule_diag (p : Params) :
    (buildSchedule p).diagnostics = (bestOf p).diagnostics := rfl

/-- C7: permissive clamping at the build boundary.  `buildSchedule` is
a total function: on every input, including non-finite or out-of-range
numbers, it computes on clamped values with `W ∈ [1, 60]`,
`R ∈ [2, 60]`, `I ∈ [1, 5]`, `totalPerforationDays ∈ [1, 5000]`, a
non-finite input is replaced by the range minimum, and a schedule
result with at least one day is always returned. -/
theorem build_clamps_inputs (p : Params) :
    (1 ≤ (buildSchedule p).params.W ∧ (buildSchedule p).params.W ≤ 60 ∧
      (buildSchedule p).params.W = clampInt p.W 1 60) ∧
    (2 ≤ (buildSchedule p).params.R ∧ (buildSchedule p).params.R ≤ 60 ∧
      (buildSchedule p).params.R = clampInt p.R 2 60) ∧
    (1 ≤ (buildSchedule p).params.I ∧ (buildSchedule p).params.I ≤ 5 ∧
      (buildSchedule p).params.I = clampInt p.I 1 5) ∧
    (1 ≤ (buildSchedule p).params.totalPerforationDays ∧
      (buildSchedule p).params.totalPerforationDays ≤ 5000 ∧
      (buildSchedule p).params.totalPerforationDays =
        clampInt p.totalPerforationDays 1 5000) ∧
    1 ≤ (buildSchedule p).days ∧
    (∀ lo hi : Int, clampInt JsNum.nan lo hi = max lo (min hi lo) ∧
      clampInt JsNum.posInf lo hi = max lo (min hi lo) ∧
      clampInt JsNum.negInf lo hi = max lo (min hi lo)) ∧
    clampInt JsNum.nan 1 60 = 1 ∧ clampInt JsNum.posInf 2 60 = 2 ∧
    clampInt JsNum.negInf 1 5 = 1 ∧ clampInt JsNum.nan 1 5000 = 1 := by
  refine ⟨⟨(clampedW_range p).1, (clampedW_range p).2, rfl⟩,
    ⟨(clampedR_range p).1, (clampedR_range p).2, rfl⟩,
    ⟨(clampedI_range p).1, (clampedI_range p).2, rfl⟩,
    ⟨(clampedT_range p).1, (clampedT_range p).2, rfl⟩,
    ?_, fun lo hi => ⟨rfl, rfl, rfl⟩, by decide, by decide, by decide, by decide⟩
  rw [buildSchedule_days]
  omega

/-- C10: the solver's degenerate fallback branch is dead code for every
input reaching it through `buildSchedule`: the clamped horizon is at
least 1, so `maxOffset ≥ 0`, the enumeration is nonempty, the search
returns a candidate (never the `{0, W + 1}` fallback), and the offsets
used by the builder lie in `[0, maxOffset]`. -/
theorem solver_fallback_unreachable (p : Params) :
    1 ≤ clampedT p + (clampedW p + clampedR p + clampedI p) * 6 + 20 ∧
    1 ≤ horizonOf p ∧
    0 ≤ maxOffsetOf (clampedW p) (clampedR p) (clampedI p) (horizonOf p) ∧
    (searchGo (clampedW p) (clampedR p) (clampedI p) (horizonOf p) 0
        (offsetPairs (maxOffsetOf (clampedW p) (clampedR p) (clampedI p) (horizonOf p)))
        none).isSome = true ∧
    (0 ≤ (bestOf p).startS2 ∧
      (bestOf p).startS2 ≤ maxOffsetOf (clampedW p) (clampedR p) (clampedI p) (horizonOf p)) ∧
    (0 ≤ (bestOf p).startS3 ∧
      (bestOf p).startS3 ≤ maxOffsetOf (clampedW p) (clampedR p) (clampedI p) (horizonOf p)) ∧
    (buildSchedule p).starts = [0, (bestOf p).startS2, (bestOf p).startS3] := by
  have h1 := clampedW_range p
  have h2 := clampedR_range p
  have h3 := clampedI_range p
  have h4 := clampedT_range p
  have hpos := horizonOf_pos p
  have hmo : 0 ≤ maxOffsetOf (clampedW p) (clampedR p) (clampedI p) (horizonOf p) := by
    unfold maxOffsetOf
    omega
  have hne : offsetPairs (maxOffsetOf (clampedW p) (clampedR p) (clampedI p) (horizonOf p)) ≠
      [] := by
    intro hnil
    have : ((0 : Int), (0 : Int)) ∈
        offsetPairs (maxOffsetOf (clampedW p) (clampedR p) (clampedI p) (horizonOf p)) :=
      (offsetPairs_mem _ _).2 ⟨le_refl 0, hmo, le_refl 0, hmo⟩
    rw [hnil] at this
    cases this
  have hsome : (searchGo (clampedW p) (clampedR p) (clampedI p) (horizonOf p) 0
      (offsetPairs (maxOffsetOf (clampedW p) (clampedR p) (clampedI p) (horizonOf p)))
      none).isSome = true := by
    cases hps : offsetPairs (maxOffsetOf (clampedW p) (clampedR p) (clampedI p) (horizonOf p))
      with
    | nil => exact absurd hps hne
    | cons q rest => rw [hps] at *; exact searchGo_cons_isSome _ _ _ _ _ q rest none
  have hbound : (0 ≤ (bestOf p).startS2 ∧
      (bestOf p).startS2 ≤ maxOffsetOf (clampedW p) (clampedR p) (clampedI p) (horizonOf p)) ∧
      (0 ≤ (bestOf p).startS3 ∧
      (bestOf p).startS3 ≤ maxOffsetOf (clampedW p) (clampedR p) (clampedI p) (horizonOf p)) := by
    unfold bestOf findBestOffsets
    cases hs : searchGo (clampedW p) (clampedR p) (clampedI p) (horizonOf p) 0
        (offsetPairs (maxOffsetOf (clampedW p) (clampedR p) (clampedI p) (horizonOf p)))
        none with
    | none => rw [hs] at hsome; cases hsome
    | some b =>
      refine searchGo_sound (clampedW p) (clampedR p) (clampedI p) (horizonOf p) 0
        (fun c => (0 ≤ c.startS2 ∧ c.startS2 ≤
            maxOffsetOf (clampedW p) (clampedR p) (clampedI p) (horizonOf p)) ∧
          (0 ≤ c.startS3 ∧ c.startS3 ≤
            maxOffsetOf (clampedW p) (clampedR p) (clampedI p) (horizonOf p)))
        _ none (fun _ hb => by cases hb) ?_ b hs
      intro q hq
      obtain ⟨hq1, hq2, hq3, hq4⟩ := (offsetPairs_mem _ _).1 hq
      exact ⟨⟨hq1, hq2⟩, ⟨hq3, hq4⟩⟩
  exact ⟨by omega, hpos, hmo, hsome, hbound.1, hbound.2, rfl⟩

/-- C9: consistency of the build result.  For every input and every
in-range cell, the trimmed state matrix holds exactly the generator's
value at that day and start, the trimmed count vector holds exactly
the number of units producing that day (a `countP` over the three
starts), and every count is at most 3. -/
theorem build_matrix_consistency (p : Params) (s d : Nat) :
    (((buildSchedule p).states.getD s []).getD d DayState.EMPTY =
      if s < 3 ∧ d < (buildSchedule p).days then
        getSupervisorStateAtDay (d : Int) ((buildSchedule p).starts.getD s 0)
          (clampedW p) (clampedR p) (clampedI p)
      else DayState.EMPTY) ∧
    ((buildSchedule p).pCount.getD d 0 =
      if d < (buildSchedule p).days then
        pCountAt (buildSchedule p).starts (clampedW p) (clampedR p) (clampedI p) (d : Int)
      else 0) ∧
    (pCountAt (buildSchedule p).starts (clampedW p) (clampedR p) (clampedI p) (d : Int) =
      (buildSchedule p).starts.countP
        (fun st => getSupervisorStateAtDay (d : Int) st (clampedW p) (clampedR p)
          (clampedI p) == DayState.P)) ∧
    (buildSchedule p).pCount.getD d 0 ≤ 3 := by
  have hDH : endDayOf p + 1 ≤ horizonOf p := endDayOf_lt p
  have hdays : (buildSchedule p).days = endDayOf p + 1 := buildSchedule_days p
  have hpc : (buildSchedule p).pCount.getD d 0 =
      if d < (buildSchedule p).days then
        pCountAt (buildSchedule p).starts (clampedW p) (clampedR p) (clampedI p) (d : Int)
      else 0 := by
    rw [buildSchedule_pCount, hdays, buildSchedule_starts]
    by_cases hd : d < endDayOf p + 1
    · rw [if_pos hd, getD_take _ hd, pcOf, pCountList]
      exact getD_map_range _ (by omega) 0
    · rw [if_neg hd]
      refine getD_of_length_le ?_ 0
      rw [List.length_take, pcOf_length]
      omega
  refine ⟨?_, hpc, rfl, ?_⟩
  · rw [buildSchedule_states, hdays, buildSchedule_starts]
    simp only [statesOf, startsOf, List.map_cons, List.map_nil]
    rcases s with _ | _ | _ | s
    · simp only [List.getD_cons_zero]
      by_cases hd : d < endDayOf p + 1
      · rw [if_pos ⟨by omega, hd⟩, getD_take _ hd]
        exact getD_map_range _ (by omega) DayState.EMPTY
      · rw [if_neg (fun hcon => hd hcon.2)]
        refine getD_of_length_le ?_ DayState.EMPTY
        rw [List.length_take, List.length_map, List.length_range]
        omega
    · simp only [List.getD_cons_succ, List.getD_cons_zero]
      by_cases hd : d < endDayOf p + 1
      · rw [if_pos ⟨by omega, hd⟩, getD_take _ hd]
        exact getD_map_range _ (by omega) DayState.EMPTY
      · rw [if_neg (fun hcon => hd hcon.2)]
        refine getD_of_length_le ?_ DayState.EMPTY
        rw [List.length_take, List.length_map, List.length_range]
        omega
    · simp only [List.getD_cons_succ, List.getD_cons_zero]
      by_cases hd : d < endDayOf p + 1
      · rw [if_pos ⟨by omega, hd⟩, getD_take _ hd]
        exact getD_map_range _ (by omega) DayState.EMPTY
      · rw [if_neg (fun hcon => hd hcon.2)]
        refine getD_of_length_le ?_ DayState.EMPTY
        rw [List.length_take, List.length_map, List.length_range]
        omega
    · simp only [List.getD_cons_succ]
      rw [if_neg (by omega)]
      rfl
  · rw [hpc]
    by_cases hd : d < (buildSchedule p).days
    · rw [if_pos hd]
      refine le_trans (List.countP_le_length _) ?_
      rw [buildSchedule_starts]
      rfl
    · rw [if_neg hd]
      omega

/-- C4: builder horizon and trimming.  The horizon is
`totalPerforationDays + (W + R + I) * 6 + 20` on the clamped values;
the result is trimmed at the first day whose running total of
two-producing days reaches the target (`days` = that index + 1), and
when the threshold is never reached within the horizon, `days` equals
the horizon and the untrimmed matrix and count vector are returned. -/
theorem builder_horizon_and_trimming (p : Params) :
    horizonOf p = (clampedT p + (clampedW p + clampedR p + clampedI p) * 6 + 20).toNat ∧
    (buildSchedule p).days ≤ horizonOf p ∧
    1 ≤ (buildSchedule p).days ∧
    ((∃ j, j < horizonOf p ∧ (buildSchedule p).days = j + 1 ∧
        clampedT p ≤ (countOf2 ((pcOf p).take (j + 1)) : Int) ∧
        ∀ e, e < j → ¬(clampedT p ≤ (countOf2 ((pcOf p).take (e + 1)) : Int))) ∨
      ((buildSchedule p).days = horizonOf p ∧
        (∀ e, e < horizonOf p → ¬(clampedT p ≤ (countOf2 ((pcOf p).take (e + 1)) : Int))) ∧
        (buildSchedule p).pCount = pcOf p ∧
        (buildSchedule p).states = statesOf p)) := by
  have hpos := horizonOf_pos p
  have hlt := endDayOf_lt p
  have hdays := buildSchedule_days p
  refine ⟨rfl, by omega, by omega, ?_⟩
  cases hfr : firstReachAux (clampedT p) (pcOf p) 0 0 with
  | some j =>
    left
    have hED : endDayOf p = j := by unfold endDayOf; rw [hfr]; rfl
    obtain ⟨_, hlen, hreach, hmin⟩ := firstReachAux_some (clampedT p) (pcOf p) 0 0 j hfr
    rw [pcOf_length] at hlen
    simp only [Nat.sub_zero] at hlen hreach hmin
    rw [zero_add] at hreach
    refine ⟨j, by omega, by omega, hreach, ?_⟩
    intro e he
    have := hmin e he
    rw [zero_add] at this
    exact this
  | none =>
    right
    have hED : endDayOf p = horizonOf p - 1 := by unfold endDayOf; rw [hfr]; rfl
    have hDH : endDayOf p + 1 = horizonOf p := by omega
    have hnone := firstReachAux_none (clampedT p) (pcOf p) 0 0 hfr
    refine ⟨by omega, ?_, ?_, ?_⟩
    · intro e he
      have := hnone e (by rw [pcOf_length]; omega)
      rw [zero_add] at this
      exact this
    · rw [buildSchedule_pCount, hDH]
      exact List.take_of_length_le (by rw [pcOf_length])
    · rw [buildSchedule_states, hDH]
      have hrow : ∀ st : Int,
          ((List.range (horizonOf p)).map (fun (dd : Nat) =>
            getSupervisorStateAtDay (dd : Int) st (clampedW p) (clampedR p)
              (clampedI p))).take (horizonOf p) =
          (List.range (horizonOf p)).map (fun (dd : Nat) =>
            getSupervisorStateAtDay (dd : Int) st (clampedW p) (clampedR p)
              (clampedI p)) := by
        intro st
        exact List.take_of_length_le (by simp)
      simp only [statesOf, startsOf, List.map_cons, List.map_nil, hrow]

/-! ### Field equations of the scoring function -/

theorem scoreOffsets_firstPDay (W R I : Int) (h : Nat) (starts : List Int) :
    (scoreOffsets W R I h starts).firstPDay =
      findIdxO (fun x => decide (0 < x)) (pCountList starts W R I h) := rfl

theorem scoreOffsets_threeP (W R I : Int) (h : Nat) (starts : List Int) :
    (scoreOffsets W R I h starts).threePDays =
      (pCountList starts W R I h).countP (fun x => x == 3) := rfl

theorem scoreOffsets_notTwo (W R I : Int) (h : Nat) (starts : List Int) :
    (scoreOffsets W R I h starts).notTwoAfterPDays =
      (List.range h).countP (fun d =>
        notTwoPred (pCountList starts W R I h)
          (findIdxO (fun x => decide (0 < x)) (pCountList starts W R I h)) d) := rfl

theorem scoreOffsets_score (W R I : Int) (h : Nat) (starts : List Int) :
    (scoreOffsets W R I h starts).score =
      ((scoreOffsets W R I h starts).threePDays : Int) * 1000 +
        ((scoreOffsets W R I h starts).notTwoAfterPDays : Int) * 10 +
        |starts.getD 1 0 - starts.getD 0 0| + |starts.getD 2 0 - starts.getD 0 0| := rfl

theorem scoreOffsets_isPerfect (W R I : Int) (h : Nat) (starts : List Int) :
    (scoreOffsets W R I h starts).isPerfect =
      ((scoreOffsets W R I h starts).threePDays == 0 &&
        (scoreOffsets W R I h starts).notTwoAfterPDays == 0) := rfl

theorem startsOf_eq (p : Params) :
    startsOf p = [0, (bestOf p).startS2, (bestOf p).startS3] := rfl

theorem pcOf_eq (p : Params) :
    pcOf p = pCountList (startsOf p) (clampedW p) (clampedR p) (clampedI p) (horizonOf p) :=
  rfl

/-- C1: coverage target.  For every input, either the solver does not
report a perfect assignment, or the trimmed result contains at least
the clamped `totalPerforationDays` many days whose producing count is
exactly 2 (this is the material form of the claim's implication). -/
theorem coverage_target_when_perfect (p : Params) :
    (buildSchedule p).diagnostics.isPerfect = false ∨
      clampedT p ≤ (countOf2 (buildSchedule p).pCount : Int) := by
  cases hperf : (buildSchedule p).diagnostics.isPerfect with
  | false => exact Or.inl rfl
  | true =>
    right
    have hW := clampedW_range p
    have hR := clampedR_range p
    have hI := clampedI_range p
    have hT := clampedT_range p
    have hHint := horizonOf_int p
    -- the diagnostics attached to the result are the score of the chosen starts
    have hdiag : (bestOf p).diagnostics =
        scoreOffsets (clampedW p) (clampedR p) (clampedI p) (horizonOf p) (startsOf p) :=
      findBestOffsets_diag (clampedW p) (clampedR p) (clampedI p) (horizonOf p) 0
    have hperf2 : (scoreOffsets (clampedW p) (clampedR p) (clampedI p) (horizonOf p)
        (startsOf p)).isPerfect = true := by
      rw [← hdiag]
      exact hperf
    have hnotTwo : (scoreOffsets (clampedW p) (clampedR p) (clampedI p) (horizonOf p)
        (startsOf p)).notTwoAfterPDays = 0 := by
      rw [scoreOffsets_isPerfect] at hperf2
      simp only [Bool.and_eq_true, beq_iff_eq] at hperf2
      exact hperf2.2
    -- supervisor 1 (start 0) has a producing day early in the horizon
    have hPday : ∃ f0 : Int, 0 ≤ f0 ∧ f0 ≤ clampedI p + clampedR p + 1 ∧
        getSupervisorStateAtDay f0 0 (clampedW p) (clampedR p) (clampedI p) =
          DayState.P := by
      refine ⟨if clampedI p < clampedW p then 1 + clampedI p
        else clampedI p + max 0 (clampedR p - 2) + 3, ?_, ?_, ?_⟩
      · split_ifs <;> omega
      · split_ifs <;> omega
      · have := state_firstP 0 (clampedW p) (clampedR p) (clampedI p)
          (by omega) (by omega) (by omega)
        rwa [zero_add] at this
    obtain ⟨f0, hf00, hf0b, hf0P⟩ := hPday
    have hd0H : f0.toNat < horizonOf p := by omega
    have hcast : ((f0.toNat : Nat) : Int) = f0 := by omega
    have hcnt : 0 < pCountAt (startsOf p) (clampedW p) (clampedR p) (clampedI p)
        ((f0.toNat : Nat) : Int) := by
      rw [hcast, pCountAt]
      refine List.countP_pos_iff.2 ⟨0, ?_, ?_⟩
      · rw [startsOf_eq]
        exact List.mem_cons_self _ _
      · rw [hf0P]
        rfl
    have hlen : (pCountList (startsOf p) (clampedW p) (clampedR p) (clampedI p)
        (horizonOf p)).length = horizonOf p := by
      simp [pCountList]
    have hpred : (fun x => decide (0 < x))
        ((pCountList (startsOf p) (clampedW p) (clampedR p) (clampedI p)
          (horizonOf p)).getD f0.toNat 0) = true := by
      rw [pCountList, getD_map_range _ hd0H]
      exact decide_eq_true hcnt
    obtain ⟨fp, hfind, hfple⟩ := findIdxO_exists (fun x => decide (0 < x)) 0
      (pCountList (startsOf p) (clampedW p) (clampedR p) (clampedI p) (horizonOf p))
      f0.toNat (by omega) hpred
    -- after the first producing day every count is 2
    have hall2 : ∀ d : Nat, fp ≤ d → d < horizonOf p →
        pCountAt (startsOf p) (clampedW p) (clampedR p) (clampedI p) (d : Int) = 2 := by
      intro d hfd hdH
      rw [scoreOffsets_notTwo, hfind] at hnotTwo
      have := List.countP_eq_zero.1 hnotTwo d (List.mem_range.2 hdH)
      simp only [notTwoPred, Bool.and_eq_true, decide_eq_true_eq, bne_iff_ne, not_and,
        not_not] at this
      have h2 := this hfd
      rwa [pCountList, getD_map_range _ hdH] at h2
    -- hence the horizon contains at least `horizon - fp ≥ T` two-producing days
    have hcount : horizonOf p - fp ≤ countOf2 (pcOf p) := by
      rw [pcOf_eq, pCountList, countOf2, List.countP_map,
        ← countP_range_ge (horizonOf p) fp]
      refine List.countP_mono_left ?_
      intro d hd hfd
      rw [List.mem_range] at hd
      rw [decide_eq_true_eq] at hfd
      have h2 := hall2 d hfd hd
      simp only [Function.comp]
      rw [h2]
      rfl
    have hTle : clampedT p ≤ (countOf2 (pcOf p) : Int) := by omega
    have hsome := firstReachAux_isSome (clampedT p) (pcOf p) 0 0 (by omega)
      (by rw [zero_add]; exact hTle)
    cases hfr : firstReachAux (clampedT p) (pcOf p) 0 0 with
    | none => rw [hfr] at hsome; cases hsome
    | some j =>
      obtain ⟨_, _, hreach, _⟩ := firstReachAux_some (clampedT p) (pcOf p) 0 0 j hfr
      simp only [Nat.sub_zero, zero_add] at hreach
      have hED : endDayOf p = j := by unfold endDayOf; rw [hfr]; rfl
      rw [buildSchedule_pCount, hED]
      exact hreach

/-- C3: the solver's selection rule.  The candidate pairs are exactly
`[0, maxOffset]^2`, enumerated with `startS2` ascending outer and
`startS3` ascending inner; each candidate's score is
`threeP * 1000 + notTwoAfterP * 10 + |offset2| + |offset3|` and
`isPerfect` is `threeP == 0 && notTwoAfterP == 0`; the solver returns
the first perfect candidate in enumeration order (hence the
lexicographically smallest perfect pair, with its own diagnostics),
and when no perfect candidate exists it returns the
earliest-enumerated candidate attaining the strictly lowest score. -/
theorem solver_selection_rule (W R I : Int) (h : Nat)
    (hW : 1 ≤ W) (hR : 2 ≤ R) (hI1 : 1 ≤ I) (hI5 : I ≤ 5) (hh : 1 ≤ h) :
    (∀ q : Int × Int, q ∈ offsetPairs (maxOffsetOf W R I h) ↔
      0 ≤ q.1 ∧ q.1 ≤ maxOffsetOf W R I h ∧ 0 ≤ q.2 ∧ q.2 ≤ maxOffsetOf W R I h) ∧
    (∀ q : Int × Int,
      candScore W R I h 0 q =
        ((scoreOffsets W R I h [0, q.1, q.2]).threePDays : Int) * 1000 +
          ((scoreOffsets W R I h [0, q.1, q.2]).notTwoAfterPDays : Int) * 10 +
          |q.1| + |q.2| ∧
      candPerfect W R I h 0 q =
        ((scoreOffsets W R I h [0, q.1, q.2]).threePDays == 0 &&
          (scoreOffsets W R I h [0, q.1, q.2]).notTwoAfterPDays == 0)) ∧
    (∀ r : Int × Int,
      (offsetPairs (maxOffsetOf W R I h)).find? (candPerfect W R I h 0) = some r →
        ((findBestOffsets W R I h 0).startS2, (findBestOffsets W R I h 0).startS3) = r ∧
        (findBestOffsets W R I h 0).diagnostics = scoreOffsets W R I h [0, r.1, r.2] ∧
        candPerfect W R I h 0 r = true ∧
        ∀ q ∈ offsetPairs (maxOffsetOf W R I h), candPerfect W R I h 0 q = true →
          r.1 < q.1 ∨ (r.1 = q.1 ∧ r.2 ≤ q.2)) ∧
    ((offsetPairs (maxOffsetOf W R I h)).find? (candPerfect W R I h 0) = none →
      IsFirstMin (candScore W R I h 0) (offsetPairs (maxOffsetOf W R I h))
        ((findBestOffsets W R I h 0).startS2, (findBestOffsets W R I h 0).startS3)) := by
  refine ⟨offsetPairs_mem _, ?_, ?_, ?_⟩
  · intro q
    constructor
    · rw [candScore, scoreOffsets_score]
      norm_num [List.getD]
    · rfl
  · intro r hr
    have hfb : findBestOffsets W R I h 0 = mkCand W R I h 0 r := by
      unfold findBestOffsets
      rw [searchGo_find_perfect W R I h 0 _ none r hr]
    refine ⟨by rw [hfb]; exact Prod.mk.eta, by rw [hfb]; rfl, List.find?_some hr, ?_⟩
    obtain ⟨hpb, as, bs, hsplit, hneg⟩ := List.find?_eq_some.1 hr
    intro q hq hqperf
    rw [hsplit] at hq
    rcases List.mem_append.1 hq with hq1 | hq2
    · exfalso
      have := hneg q hq1
      rw [hqperf] at this
      cases this
    · rcases List.mem_cons.1 hq2 with rfl | hq3
      · exact Or.inr ⟨rfl, le_refl _⟩
      · have hpw := offsetPairs_pairwise (maxOffsetOf W R I h)
        rw [hsplit] at hpw
        have := ((List.pairwise_append.1 hpw).2.1)
        have hlex := (List.pairwise_cons.1 this).1 q hq3
        rcases hlex with hlt | ⟨heq, hlt⟩
        · exact Or.inl hlt
        · exact Or.inr ⟨heq, le_of_lt hlt⟩
  · intro hnone
    have hnp : ∀ q ∈ offsetPairs (maxOffsetOf W R I h), candPerfect W R I h 0 q = false := by
      intro q hq
      have := List.find?_eq_none.1 hnone q hq
      exact Bool.eq_false_iff.2 this
    have hmo : 0 ≤ maxOffsetOf W R I h := by
      unfold maxOffsetOf
      omega
    cases hps : offsetPairs (maxOffsetOf W R I h) with
    | nil =>
      exfalso
      have : ((0 : Int), (0 : Int)) ∈ offsetPairs (maxOffsetOf W R I h) :=
        (offsetPairs_mem _ _).2 ⟨le_refl 0, hmo, le_refl 0, hmo⟩
      rw [hps] at this
      cases this
    | cons q rest =>
      rw [hps] at hnp
      have hqnp : ¬((scoreOffsets W R I h [0, q.1, q.2]).isPerfect = true) := by
        intro hcon
        have := hnp q (List.mem_cons_self q rest)
        rw [show (scoreOffsets W R I h [0, q.1, q.2]).isPerfect =
          candPerfect W R I h 0 q from rfl] at hcon
        rw [this] at hcon
        cases hcon
      have hgo : searchGo W R I h 0 (q :: rest) none =
          some (mkCand W R I h 0 (runMin (candScore W R I h 0) q rest)) := by
        simp only [searchGo]
        rw [if_neg hqnp]
        exact searchGo_no_perfect W R I h 0 rest q
          (fun x hx => hnp x (List.mem_cons_of_mem q hx))
      have hfb : findBestOffsets W R I h 0 =
          mkCand W R I h 0 (runMin (candScore W R I h 0) q rest) := by
        unfold findBestOffsets
        rw [hps, hgo]
      rw [hfb]
      have := runMin_isFirstMin (candScore W R I h 0) rest q
      simpa [mkCand, Prod.mk.eta] using this

/-- Witness for C3: at `W = 1`, `R = 2`, `I = 1`, `horizon = 1` the
candidate `(0, 0)` is perfect (no producing day exists in a one-day
window) and is returned; at the same regime with `horizon = 6` no
candidate is perfect and the returned pair is the earliest minimum of
the score over the enumeration. -/
theorem solver_selection_rule_witness :
    ((findBestOffsets 1 2 1 1 0).startS2, (findBestOffsets 1 2 1 1 0).startS3) =
      ((0 : Int), (0 : Int)) ∧
    IsFirstMin (candScore 1 2 1 6 0) (offsetPairs (maxOffsetOf 1 2 1 6))
      ((findBestOffsets 1 2 1 6 0).startS2, (findBestOffsets 1 2 1 6 0).startS3) := by
  constructor
  · exact ((solver_selection_rule 1 2 1 1 (by decide) (by decide) (by decide) (by decide)
      (by decide)).2.2.1 (0, 0) (by decide)).1
  · exact (solver_selection_rule 1 2 1 6 (by decide) (by decide) (by decide) (by decide)
      (by decide)).2.2.2 (by decide)

end SupervisorSchedule
